import Mathlib

/-!
Verification of the itemset-mining core of `maximal-closed-frequent-itemsets`.

Shallow embedding choices:
* an item is a natural number (items are opaque hashable labels);
* an itemset (Python `frozenset`) is a `Finset ℕ`;
* a transaction list is a `List (Finset ℕ)`;
* a Python `dict` mapping itemsets to support counts is embedded as the
  finite graph of the map, a `Finset (Finset ℕ × ℕ)` (keys are unique in a
  dict; the graph representation keeps key/value pairs first-class);
* the `float` parameter `min_support` is embedded as an exact rational `ℚ`;
* the unbounded `while` loop of `get_frequent_itemsets` is embedded with an
  explicit fuel parameter; the chosen fuel `(all_items transactions).card + 1`
  is proved sufficient (the loop in the source terminates because candidate
  sizes grow past the number of distinct items).
-/

/-- Embeds `count_support` from `src/apriori.py` for a single itemset: the
counter starts at 0 and is incremented once for every transaction that has
the itemset as a subset.  (The Python function returns a dict over a whole
candidate set; per key it computes exactly this fold.) -/
def count_support (transactions : List (Finset ℕ)) (itemset : Finset ℕ) : ℕ :=
  transactions.foldl (fun acc t => if itemset ⊆ t then acc + 1 else acc) 0

/-- Embeds `generate_candidates` from `src/apriori.py`: for every pair of
distinct frequent itemsets, take the union; keep it when its cardinality is
exactly `k` and every `(k-1)`-sized subset is again frequent.  The Python
loops over index pairs `i < j` of a listing of the set; since union is
symmetric, ranging over all ordered pairs of distinct elements produces the
same candidate set. -/
def generate_candidates (frequent_itemsets : Finset (Finset ℕ)) (k : ℕ) :
    Finset (Finset ℕ) :=
  ((frequent_itemsets ×ˢ frequent_itemsets).filter
      (fun p => p.1 ≠ p.2 ∧ (p.1 ∪ p.2).card = k ∧
        Finset.powersetCard (k - 1) (p.1 ∪ p.2) ⊆ frequent_itemsets)).image
    (fun p => p.1 ∪ p.2)

/-- Embeds the `all_items` accumulation in `get_frequent_itemsets`
(`all_items.update(transaction)` for each transaction). -/
def all_items (transactions : List (Finset ℕ)) : Finset ℕ :=
  transactions.foldl (fun acc t => acc ∪ t) ∅

/-- Embeds `min_support_count = int(min_support * n_transactions)` from
`src/apriori.py`.  Python `int()` truncates toward zero; for the
non-negative products arising from the documented range `(0, 1]` this is the
floor.  The result is compared against natural-number counts, so a negative
truncation (only possible outside the documented range) behaves exactly like
threshold 0, which `Int.toNat` implements. -/
def min_support_count (min_support : ℚ) (n_transactions : ℕ) : ℕ :=
  (⌊min_support * (n_transactions : ℚ)⌋).toNat

/-- Embeds the `while current_frequent:` loop of `get_frequent_itemsets`:
generate candidates of size `k`, stop when none are produced, otherwise keep
the candidates that meet the support threshold, record them in the
accumulated result, and continue at `k + 1`.  `fuel` bounds the number of
iterations; the caller supplies provably sufficient fuel. -/
def apriori_loop (transactions : List (Finset ℕ)) (minCount : ℕ) :
    ℕ → Finset (Finset ℕ) → ℕ → Finset (Finset ℕ) → Finset (Finset ℕ)
  | 0, _, _, acc => acc
  | fuel + 1, current, k, acc =>
    if current = ∅ then acc
    else
      let candidates := generate_candidates current k
      if candidates = ∅ then acc
      else
        let newFrequent :=
          candidates.filter (fun x => minCount ≤ count_support transactions x)
        apriori_loop transactions minCount fuel newFrequent (k + 1)
          (acc ∪ newFrequent)

/-- Embeds `get_frequent_itemsets` from `src/apriori.py`, returning the key
set of the produced dict: level 1 keeps the frequent single-item itemsets,
then the level-wise loop starting at `k = 2` accumulates the higher levels.
Every value stored in the Python dict is `count_support` of its key, so the
dict itself is recovered by `get_frequent_map` below. -/
def get_frequent_itemsets (transactions : List (Finset ℕ)) (min_support : ℚ) :
    Finset (Finset ℕ) :=
  let minCount := min_support_count min_support transactions.length
  let singles := (all_items transactions).image (fun i => ({i} : Finset ℕ))
  let currentFrequent :=
    singles.filter (fun x => minCount ≤ count_support transactions x)
  apriori_loop transactions minCount ((all_items transactions).card + 1)
    currentFrequent 2 currentFrequent

/-- The dict returned by `get_frequent_itemsets`, as its graph: every key is
mapped to the support count that `count_support` computed for it. -/
def get_frequent_map (transactions : List (Finset ℕ)) (min_support : ℚ) :
    Finset (Finset ℕ × ℕ) :=
  (get_frequent_itemsets transactions min_support).image
    (fun x => (x, count_support transactions x))

/-- Embeds `find_closed_itemsets` from `src/closed_itemsets.py` on the graph
of the input dict: an entry is kept unless some entry with a strictly larger
key (the source scans only strictly larger size groups) is a proper superset
with the same support.  The early `return {}` for an empty dict coincides
with filtering the empty graph. -/
def find_closed_itemsets (frequent_itemsets : Finset (Finset ℕ × ℕ)) :
    Finset (Finset ℕ × ℕ) :=
  frequent_itemsets.filter (fun p =>
    ¬ ∃ q ∈ frequent_itemsets, p.1.card < q.1.card ∧ p.1 ⊂ q.1 ∧ q.2 = p.2)

/-- Embeds `find_maximal_itemsets` from `src/maximal_itemsets.py`: a key is
kept unless some key of strictly larger size in the dict is a proper
superset of it; the returned collection holds the keys only (the Python
function returns a list of itemsets, built from the unique dict keys, hence
duplicate-free — embedded as a `Finset`). -/
def find_maximal_itemsets (frequent_itemsets : Finset (Finset ℕ × ℕ)) :
    Finset (Finset ℕ) :=
  (frequent_itemsets.filter (fun p =>
    ¬ ∃ q ∈ frequent_itemsets, p.1.card < q.1.card ∧ p.1 ⊂ q.1)).image
    (fun p => p.1)

/-- The support threshold predicate an itemset must meet together with being
drawn from the item universe of the transactions: the semantic
characterisation of the sets the engine can ever report. -/
def isFrequent (transactions : List (Finset ℕ)) (minCount : ℕ)
    (x : Finset ℕ) : Prop :=
  x ⊆ all_items transactions ∧ minCount ≤ count_support transactions x

instance (transactions : List (Finset ℕ)) (minCount : ℕ) (x : Finset ℕ) :
    Decidable (isFrequent transactions minCount x) := by
  unfold isFrequent; infer_instance

lemma count_support_go (transactions : List (Finset ℕ)) (x : Finset ℕ) :
    ∀ acc : ℕ,
      transactions.foldl (fun acc t => if x ⊆ t then acc + 1 else acc) acc =
        acc + transactions.countP (fun t => decide (x ⊆ t)) := by
  induction transactions with
  | nil => intro acc; simp
  | cons t ts ih =>
    intro acc
    simp only [List.foldl_cons, List.countP_cons, ih]
    by_cases h : x ⊆ t
    · simp [h]
      omega
    · simp [h]

lemma count_support_eq_countP (transactions : List (Finset ℕ)) (x : Finset ℕ) :
    count_support transactions x =
      transactions.countP (fun t => decide (x ⊆ t)) := by
  simpa using count_support_go transactions x 0

lemma count_support_eq_length_filter (transactions : List (Finset ℕ))
    (x : Finset ℕ) :
    count_support transactions x =
      (transactions.filter (fun t => decide (x ⊆ t))).length := by
  rw [count_support_eq_countP, List.countP_eq_length_filter]

lemma count_support_anti (transactions : List (Finset ℕ)) {x y : Finset ℕ}
    (hxy : x ⊆ y) :
    count_support transactions y ≤ count_support transactions x := by
  rw [count_support_eq_countP, count_support_eq_countP]
  induction transactions with
  | nil => simp
  | cons t ts ih =>
    simp only [List.countP_cons]
    by_cases hy : y ⊆ t
    · have hx : x ⊆ t := hxy.trans hy
      simp [hx, hy]; omega
    · by_cases hx : x ⊆ t <;> simp [hx, hy] <;> omega

lemma mem_all_items_go (transactions : List (Finset ℕ)) :
    ∀ (acc : Finset ℕ) (i : ℕ),
      i ∈ transactions.foldl (fun acc t => acc ∪ t) acc ↔
        i ∈ acc ∨ ∃ t ∈ transactions, i ∈ t := by
  induction transactions with
  | nil => intro acc i; simp
  | cons t ts ih =>
    intro acc i
    simp only [List.foldl_cons, ih, Finset.mem_union, List.mem_cons]
    constructor
    · rintro ((h | h) | ⟨u, hu, hiu⟩)
      · exact Or.inl h
      · exact Or.inr ⟨t, Or.inl rfl, h⟩
      · exact Or.inr ⟨u, Or.inr hu, hiu⟩
    · rintro (h | ⟨u, hu | hu, hiu⟩)
      · exact Or.inl (Or.inl h)
      · exact Or.inl (Or.inr (hu ▸ hiu))
      · exact Or.inr ⟨u, hu, hiu⟩

lemma mem_all_items (transactions : List (Finset ℕ)) (i : ℕ) :
    i ∈ all_items transactions ↔ ∃ t ∈ transactions, i ∈ t := by
  unfold all_items
  rw [mem_all_items_go]
  simp

lemma erase_union_erase_of_ne {c : Finset ℕ} {a b : ℕ}
    (hab : a ≠ b) : c.erase a ∪ c.erase b = c := by
  ext x
  simp only [Finset.mem_union, Finset.mem_erase]
  constructor
  · rintro (⟨_, hx⟩ | ⟨_, hx⟩) <;> exact hx
  · intro hx
    by_cases hxa : x = a
    · exact Or.inr ⟨by rw [hxa]; exact hab, hx⟩
    · exact Or.inl ⟨hxa, hx⟩

lemma mem_generate_candidates {F : Finset (Finset ℕ)} {k : ℕ} (hk : 2 ≤ k)
    (c : Finset ℕ) :
    c ∈ generate_candidates F k ↔
      c.card = k ∧ Finset.powersetCard (k - 1) c ⊆ F := by
  constructor
  · intro hc
    simp only [generate_candidates, Finset.mem_image, Finset.mem_filter,
      Finset.mem_product] at hc
    obtain ⟨p, ⟨⟨_, _⟩, _, hcard, hsub⟩, rfl⟩ := hc
    exact ⟨hcard, hsub⟩
  · rintro ⟨hcard, hsub⟩
    have h1c : 1 < c.card := by omega
    obtain ⟨a, ha, b, hb, hab⟩ := Finset.one_lt_card.mp h1c
    have hea : c.erase a ∈ F := by
      refine hsub (Finset.mem_powersetCard.mpr ⟨Finset.erase_subset _ _, ?_⟩)
      rw [Finset.card_erase_of_mem ha, hcard]
    have heb : c.erase b ∈ F := by
      refine hsub (Finset.mem_powersetCard.mpr ⟨Finset.erase_subset _ _, ?_⟩)
      rw [Finset.card_erase_of_mem hb, hcard]
    have hunion : c.erase a ∪ c.erase b = c :=
      erase_union_erase_of_ne hab
    have hne : c.erase a ≠ c.erase b := by
      intro h
      have hmem : b ∈ c.erase a := Finset.mem_erase.mpr ⟨Ne.symm hab, hb⟩
      rw [h] at hmem
      exact (Finset.mem_erase.mp hmem).1 rfl
    simp only [generate_candidates, Finset.mem_image, Finset.mem_filter,
      Finset.mem_product]
    refine ⟨(c.erase a, c.erase b), ⟨⟨hea, heb⟩, hne, ?_, ?_⟩, hunion⟩
    · rw [hunion, hcard]
    · rw [hunion]
      exact hsub

lemma generate_candidates_card {F : Finset (Finset ℕ)} {k : ℕ}
    {c : Finset ℕ} (hc : c ∈ generate_candidates F k) : c.card = k := by
  simp only [generate_candidates, Finset.mem_image, Finset.mem_filter,
    Finset.mem_product] at hc
  obtain ⟨p, ⟨⟨_, _⟩, _, hcard, _⟩, rfl⟩ := hc
  exact hcard

lemma generate_candidates_subset {F : Finset (Finset ℕ)} {k : ℕ}
    {U : Finset ℕ} (hF : ∀ y ∈ F, y ⊆ U) {c : Finset ℕ}
    (hc : c ∈ generate_candidates F k) : c ⊆ U := by
  simp only [generate_candidates, Finset.mem_image, Finset.mem_filter,
    Finset.mem_product] at hc
  obtain ⟨p, ⟨⟨h1, h2⟩, _, _, _⟩, rfl⟩ := hc
  exact Finset.union_subset (hF _ h1) (hF _ h2)

lemma generate_candidates_empty_of_small {F : Finset (Finset ℕ)} {k : ℕ}
    (hF : F.card < 2) : generate_candidates F k = ∅ := by
  rw [Finset.eq_empty_iff_forall_not_mem]
  intro c hc
  simp only [generate_candidates, Finset.mem_image, Finset.mem_filter,
    Finset.mem_product] at hc
  obtain ⟨p, ⟨⟨h1, h2⟩, hne, _, _⟩, _⟩ := hc
  have : 1 < F.card := Finset.one_lt_card.mpr ⟨p.1, h1, p.2, h2, hne⟩
  omega

lemma isFrequent_subset {transactions : List (Finset ℕ)} {minCount : ℕ}
    {x y : Finset ℕ} (hx : isFrequent transactions minCount x)
    (hyx : y ⊆ x) : isFrequent transactions minCount y :=
  ⟨hyx.trans hx.1, le_trans hx.2 (count_support_anti transactions hyx)⟩

lemma isFrequent_card_le {transactions : List (Finset ℕ)} {minCount : ℕ}
    {x : Finset ℕ} (hx : isFrequent transactions minCount x) :
    x.card ≤ (all_items transactions).card :=
  Finset.card_le_card hx.1

lemma exists_isFrequent_card {transactions : List (Finset ℕ)} {minCount : ℕ}
    {x : Finset ℕ} (hx : isFrequent transactions minCount x) {m : ℕ}
    (hm : m ≤ x.card) :
    ∃ y, isFrequent transactions minCount y ∧ y.card = m := by
  obtain ⟨y, hyx, hycard⟩ := Finset.exists_subset_card_eq hm
  exact ⟨y, isFrequent_subset hx hyx, hycard⟩

lemma apriori_loop_spec (transactions : List (Finset ℕ)) (minCount : ℕ) :
    ∀ (fuel k : ℕ) (current acc : Finset (Finset ℕ)),
      2 ≤ k →
      (all_items transactions).card + 2 ≤ k + fuel →
      (∀ x, x ∈ current ↔
        isFrequent transactions minCount x ∧ x.card = k - 1) →
      (∀ x, x ∈ acc ↔
        isFrequent transactions minCount x ∧ 1 ≤ x.card ∧ x.card ≤ k - 1) →
      ∀ x, x ∈ apriori_loop transactions minCount fuel current k acc ↔
        isFrequent transactions minCount x ∧ 1 ≤ x.card := by
  intro fuel
  induction fuel with
  | zero =>
    intro k current acc hk hfuel hcur hacc x
    simp only [apriori_loop]
    rw [hacc]
    constructor
    · rintro ⟨h1, h2, _⟩
      exact ⟨h1, h2⟩
    · rintro ⟨h1, h2⟩
      have hle := isFrequent_card_le h1
      exact ⟨h1, h2, by omega⟩
  | succ fuel ih =>
    intro k current acc hk hfuel hcur hacc x
    simp only [apriori_loop]
    by_cases hcur0 : current = ∅
    · rw [if_pos hcur0, hacc]
      constructor
      · rintro ⟨h1, h2, _⟩
        exact ⟨h1, h2⟩
      · rintro ⟨h1, h2⟩
        refine ⟨h1, h2, ?_⟩
        by_contra hlt
        push_neg at hlt
        obtain ⟨y, hy, hycard⟩ := exists_isFrequent_card h1 (m := k - 1)
          (by omega)
        have hymem : y ∈ current := (hcur y).mpr ⟨hy, hycard⟩
        rw [hcur0] at hymem
        exact absurd hymem (Finset.not_mem_empty y)
    · rw [if_neg hcur0]
      by_cases hcand : generate_candidates current k = ∅
      · rw [if_pos hcand, hacc]
        constructor
        · rintro ⟨h1, h2, _⟩
          exact ⟨h1, h2⟩
        · rintro ⟨h1, h2⟩
          refine ⟨h1, h2, ?_⟩
          by_contra hlt
          push_neg at hlt
          obtain ⟨y, hy, hycard⟩ := exists_isFrequent_card h1 (m := k)
            (by omega)
          have hysub : Finset.powersetCard (k - 1) y ⊆ current := by
            intro s hs
            obtain ⟨hsy, hscard⟩ := Finset.mem_powersetCard.mp hs
            exact (hcur s).mpr ⟨isFrequent_subset hy hsy, hscard⟩
          have hymem : y ∈ generate_candidates current k :=
            (mem_generate_candidates hk y).mpr ⟨hycard, hysub⟩
          rw [hcand] at hymem
          exact absurd hymem (Finset.not_mem_empty y)
      · rw [if_neg hcand]
        have hcurU : ∀ y ∈ current, y ⊆ all_items transactions := by
          intro y hy
          exact (((hcur y).mp hy).1).1
        have hcur2 : ∀ y, y ∈ (generate_candidates current k).filter
            (fun z => minCount ≤ count_support transactions z) ↔
            isFrequent transactions minCount y ∧ y.card = (k + 1) - 1 := by
          intro y
          simp only [Finset.mem_filter]
          constructor
          · rintro ⟨hyc, hycnt⟩
            exact ⟨⟨generate_candidates_subset hcurU hyc, hycnt⟩,
              by rw [generate_candidates_card hyc]; omega⟩
          · rintro ⟨⟨hysub, hycnt⟩, hycard⟩
            refine ⟨(mem_generate_candidates hk y).mpr ⟨by omega, ?_⟩, hycnt⟩
            intro s hs
            obtain ⟨hsy, hscard⟩ := Finset.mem_powersetCard.mp hs
            exact (hcur s).mpr ⟨isFrequent_subset ⟨hysub, hycnt⟩ hsy, hscard⟩
        have hacc2 : ∀ y, y ∈ acc ∪ (generate_candidates current k).filter
            (fun z => minCount ≤ count_support transactions z) ↔
            isFrequent transactions minCount y ∧ 1 ≤ y.card ∧
              y.card ≤ (k + 1) - 1 := by
          intro y
          rw [Finset.mem_union, hacc y, hcur2 y]
          constructor
          · rintro (⟨h1, h2, h3⟩ | ⟨h1, h2⟩)
            · exact ⟨h1, h2, by omega⟩
            · exact ⟨h1, by omega, by omega⟩
          · rintro ⟨h1, h2, h3⟩
            by_cases hck : y.card ≤ k - 1
            · exact Or.inl ⟨h1, h2, hck⟩
            · exact Or.inr ⟨h1, by omega⟩
        exact ih (k + 1) _ _ (by omega) (by omega) hcur2 hacc2 x

lemma mem_get_frequent_itemsets (transactions : List (Finset ℕ)) (s : ℚ)
    (x : Finset ℕ) :
    x ∈ get_frequent_itemsets transactions s ↔
      isFrequent transactions (min_support_count s transactions.length) x ∧
        1 ≤ x.card := by
  simp only [get_frequent_itemsets]
  refine apriori_loop_spec transactions _ _ 2 _ _ (le_refl 2) (by omega)
    ?_ ?_ x
  · intro y
    simp only [Finset.mem_filter, Finset.mem_image]
    constructor
    · rintro ⟨⟨i, hi, rfl⟩, hcnt⟩
      exact ⟨⟨Finset.singleton_subset_iff.mpr hi, hcnt⟩,
        Finset.card_singleton i⟩
    · rintro ⟨⟨hsub, hcnt⟩, hcard⟩
      obtain ⟨i, rfl⟩ := Finset.card_eq_one.mp hcard
      exact ⟨⟨i, Finset.singleton_subset_iff.mp hsub, rfl⟩, hcnt⟩
  · intro y
    simp only [Finset.mem_filter, Finset.mem_image]
    constructor
    · rintro ⟨⟨i, hi, rfl⟩, hcnt⟩
      exact ⟨⟨Finset.singleton_subset_iff.mpr hi, hcnt⟩, by simp, by simp⟩
    · rintro ⟨⟨hsub, hcnt⟩, h1, h2⟩
      have hcard : y.card = 1 := by omega
      obtain ⟨i, rfl⟩ := Finset.card_eq_one.mp hcard
      exact ⟨⟨i, Finset.singleton_subset_iff.mp hsub, rfl⟩, hcnt⟩

/-- C2: `find_closed_itemsets` returns exactly the sub-map of its input
restricted to the entries whose key has no proper-superset key in the map
with the same support count; every retained entry is an entry of the input
map (so it keeps its support value), and the empty map yields the empty
map.  The strictly-larger-size guard of the source scan is redundant, since
a proper superset always has strictly larger cardinality. -/
theorem find_closed_itemsets_spec :
    (∀ (M : Finset (Finset ℕ × ℕ)) (p : Finset ℕ × ℕ),
      p ∈ find_closed_itemsets M ↔
        p ∈ M ∧ ¬ ∃ q ∈ M, p.1 ⊂ q.1 ∧ q.2 = p.2) ∧
    find_closed_itemsets ∅ = ∅ := by
  constructor
  · intro M p
    simp only [find_closed_itemsets, Finset.mem_filter]
    constructor
    · rintro ⟨hp, hn⟩
      refine ⟨hp, ?_⟩
      rintro ⟨q, hq, hsub, heq⟩
      exact hn ⟨q, hq, Finset.card_lt_card hsub, hsub, heq⟩
    · rintro ⟨hp, hn⟩
      refine ⟨hp, ?_⟩
      rintro ⟨q, hq, _, hsub, heq⟩
      exact hn ⟨q, hq, hsub, heq⟩
  · simp [find_closed_itemsets]

/-- C3: `find_maximal_itemsets` returns (as a duplicate-free `Finset`)
exactly the keys of its input map that have no proper-superset key in the
map; every key of maximum cardinality is in the result, and the empty map
yields the empty collection. -/
theorem find_maximal_itemsets_spec :
    (∀ (M : Finset (Finset ℕ × ℕ)) (x : Finset ℕ),
      x ∈ find_maximal_itemsets M ↔
        (∃ v, (x, v) ∈ M) ∧ ¬ ∃ q ∈ M, x ⊂ q.1) ∧
    (∀ (M : Finset (Finset ℕ × ℕ)), ∀ p ∈ M,
      (∀ q ∈ M, q.1.card ≤ p.1.card) → p.1 ∈ find_maximal_itemsets M) ∧
    find_maximal_itemsets ∅ = ∅ := by
  refine ⟨?_, ?_, by simp [find_maximal_itemsets]⟩
  · intro M x
    simp only [find_maximal_itemsets, Finset.mem_image, Finset.mem_filter]
    constructor
    · rintro ⟨p, ⟨hp, hn⟩, rfl⟩
      refine ⟨⟨p.2, hp⟩, ?_⟩
      rintro ⟨q, hq, hsub⟩
      exact hn ⟨q, hq, Finset.card_lt_card hsub, hsub⟩
    · rintro ⟨⟨v, hv⟩, hn⟩
      refine ⟨(x, v), ⟨hv, ?_⟩, rfl⟩
      rintro ⟨q, hq, _, hsub⟩
      exact hn ⟨q, hq, hsub⟩
  · intro M p hp hmax
    simp only [find_maximal_itemsets, Finset.mem_image, Finset.mem_filter]
    refine ⟨p, ⟨hp, ?_⟩, rfl⟩
    rintro ⟨q, hq, hcard, _⟩
    exact absurd (hmax q hq) (by omega)

/-- C4: for `k ≥ 2` and a family of `(k-1)`-sized itemsets,
`generate_candidates` returns exactly the itemsets of size `k` all of whose
`(k-1)`-sized subsets belong to the family (each once, being a `Finset`),
and a family with fewer than two members yields no candidates. -/
theorem generate_candidates_spec :
    ∀ (F : Finset (Finset ℕ)) (k : ℕ), 2 ≤ k → (∀ y ∈ F, y.card = k - 1) →
      (∀ c, c ∈ generate_candidates F k ↔
        c.card = k ∧ ∀ s ∈ Finset.powersetCard (k - 1) c, s ∈ F) ∧
      (F.card < 2 → generate_candidates F k = ∅) := by
  intro F k hk _hsizes
  refine ⟨?_, fun h => generate_candidates_empty_of_small h⟩
  intro c
  rw [mem_generate_candidates hk]
  constructor
  · rintro ⟨h1, h2⟩
    exact ⟨h1, fun s hs => h2 hs⟩
  · rintro ⟨h1, h2⟩
    exact ⟨h1, fun s hs => h2 s hs⟩

/-- Witness for the C4 theorem at `F = {{0}, {1}}`, `k = 2`: the pair join
`{0, 1}` is a candidate. -/
theorem generate_candidates_spec_witness :
    ({0, 1} : Finset ℕ) ∈ generate_candidates {{0}, {1}} 2 :=
  ((generate_candidates_spec {{0}, {1}} 2 (by norm_num) (by decide)).1
    {0, 1}).mpr (by decide)

/-- C6: on any non-empty map, every maximal itemset is a key of the closed
sub-map, hence the counts satisfy maximal ≤ closed ≤ frequent. -/
theorem maximal_subset_closed :
    ∀ (M : Finset (Finset ℕ × ℕ)), M.Nonempty →
      (∀ x ∈ find_maximal_itemsets M,
        ∃ v, (x, v) ∈ find_closed_itemsets M) ∧
      (find_maximal_itemsets M).card ≤ (find_closed_itemsets M).card ∧
      (find_closed_itemsets M).card ≤ M.card := by
  intro M _
  have hsub : ∀ x ∈ find_maximal_itemsets M,
      ∃ v, (x, v) ∈ find_closed_itemsets M := by
    intro x hx
    simp only [find_maximal_itemsets, Finset.mem_image,
      Finset.mem_filter] at hx
    obtain ⟨p, ⟨hp, hn⟩, rfl⟩ := hx
    refine ⟨p.2, ?_⟩
    simp only [find_closed_itemsets, Finset.mem_filter]
    refine ⟨hp, ?_⟩
    rintro ⟨q, hq, hcard, hss, _⟩
    exact hn ⟨q, hq, hcard, hss⟩
  refine ⟨hsub, ?_, Finset.card_filter_le _ _⟩
  have himg : find_maximal_itemsets M ⊆
      (find_closed_itemsets M).image (fun p => p.1) := by
    intro x hx
    obtain ⟨v, hv⟩ := hsub x hx
    exact Finset.mem_image.mpr ⟨(x, v), hv, rfl⟩
  calc (find_maximal_itemsets M).card
      ≤ ((find_closed_itemsets M).image (fun p => p.1)).card :=
        Finset.card_le_card himg
    _ ≤ (find_closed_itemsets M).card := Finset.card_image_le

/-- Witness for the C6 theorem at the one-entry map `{({0}, 1)}`. -/
theorem maximal_subset_closed_witness :
    (find_maximal_itemsets {(({0} : Finset ℕ), 1)}).card ≤
      (find_closed_itemsets {(({0} : Finset ℕ), 1)}).card :=
  (maximal_subset_closed {(({0} : Finset ℕ), 1)} (by decide)).2.1

lemma min_support_count_le_iff (s : ℚ) (n c : ℕ) :
    min_support_count s n ≤ c ↔ ⌊s * (n : ℚ)⌋ ≤ (c : ℤ) := by
  unfold min_support_count
  exact Int.toNat_le

/-- C1: the dict produced by `get_frequent_itemsets` has as entries exactly
the pairs `(X, n)` where `X` is a non-empty itemset of items occurring in
the transactions, `n` is the number of transactions containing `X` as a
subset, and `n` meets the threshold `⌊min_support * |transactions|⌋`
inclusively.  (The second conjunct pins `all_items` to "items occurring in
some transaction".) -/
theorem get_frequent_itemsets_correct :
    ∀ (transactions : List (Finset ℕ)) (min_support : ℚ),
      (∀ p : Finset ℕ × ℕ,
        p ∈ get_frequent_map transactions min_support ↔
          p.1.Nonempty ∧ p.1 ⊆ all_items transactions ∧
            ⌊min_support * (transactions.length : ℚ)⌋ ≤ (p.2 : ℤ) ∧
            p.2 = (transactions.filter (fun t => decide (p.1 ⊆ t))).length) ∧
      (∀ i, i ∈ all_items transactions ↔ ∃ t ∈ transactions, i ∈ t) := by
  intro T s
  refine ⟨?_, mem_all_items T⟩
  intro p
  simp only [get_frequent_map, Finset.mem_image]
  constructor
  · rintro ⟨x, hx, rfl⟩
    obtain ⟨⟨hsub, hcnt⟩, hcard⟩ := (mem_get_frequent_itemsets T s x).mp hx
    exact ⟨Finset.one_le_card.mp hcard, hsub,
      (min_support_count_le_iff s T.length _).mp hcnt,
      count_support_eq_length_filter T x⟩
  · rintro ⟨hne, hsub, hcnt, hval⟩
    have hcount : count_support T p.1 = p.2 := by
      rw [count_support_eq_length_filter, ← hval]
    refine ⟨p.1, ?_, ?_⟩
    · refine (mem_get_frequent_itemsets T s p.1).mpr
        ⟨⟨hsub, ?_⟩, Finset.one_le_card.mpr hne⟩
      rw [hcount]
      exact (min_support_count_le_iff s T.length _).mpr hcnt
    · rw [hcount]

/-- C5: downward closure — every non-empty proper subset of a frequent
itemset of size above one is itself a key of the frequent-itemset result. -/
theorem frequent_downward_closed :
    ∀ (transactions : List (Finset ℕ)) (min_support : ℚ) (x y : Finset ℕ),
      x ∈ get_frequent_itemsets transactions min_support →
      1 < x.card → y ⊂ x → y.Nonempty →
      y ∈ get_frequent_itemsets transactions min_support := by
  intro T s x y hx _ hyx hyne
  obtain ⟨hfx, _⟩ := (mem_get_frequent_itemsets T s x).mp hx
  exact (mem_get_frequent_itemsets T s y).mpr
    ⟨isFrequent_subset hfx hyx.subset, Finset.one_le_card.mpr hyne⟩

/-- Witness for the C5 theorem: on `[{0, 1}]` with threshold 1, the subset
`{0}` of the frequent pair `{0, 1}` is frequent. -/
theorem frequent_downward_closed_witness :
    ({0} : Finset ℕ) ∈ get_frequent_itemsets [{0, 1}] 1 := by
  apply frequent_downward_closed [{0, 1}] 1 {0, 1} {0}
  · rw [mem_get_frequent_itemsets]
    refine ⟨⟨by decide, ?_⟩, by decide⟩
    have h : min_support_count 1 ([({0, 1} : Finset ℕ)]).length = 1 := by
      norm_num [min_support_count]
    rw [h]
    decide
  · decide
  · decide
  · decide

/-- C7: for the documented non-negative range of `min_support` the threshold
is the integer floor of `min_support * |transactions|` (which equals
truncation toward zero there), and the comparison against it is inclusive:
an itemset of occurring items whose count exactly equals the threshold is
reported frequent. -/
theorem min_support_count_floor_inclusive :
    (∀ (min_support : ℚ) (n : ℕ), 0 ≤ min_support →
      (min_support_count min_support n : ℤ) = ⌊min_support * (n : ℚ)⌋) ∧
    (∀ (transactions : List (Finset ℕ)) (min_support : ℚ) (x : Finset ℕ),
      x.Nonempty → x ⊆ all_items transactions →
      count_support transactions x =
        min_support_count min_support transactions.length →
      x ∈ get_frequent_itemsets transactions min_support) := by
  constructor
  · intro s n hs
    unfold min_support_count
    rw [Int.toNat_of_nonneg]
    exact Int.floor_nonneg.mpr (mul_nonneg hs (Nat.cast_nonneg n))
  · intro T s x hne hsub hcnt
    exact (mem_get_frequent_itemsets T s x).mpr
      ⟨⟨hsub, le_of_eq hcnt.symm⟩, Finset.one_le_card.mpr hne⟩

/-- Witness for the C7 theorem: threshold `⌊(1/3) * 4⌋ = 1`, and on
`[{0}, {1}]` with `min_support = 1/2` the itemset `{0}` has count exactly
equal to the threshold 1 and is reported frequent. -/
theorem min_support_count_floor_inclusive_witness :
    (min_support_count (1 / 3) 4 : ℤ) = ⌊(1 / 3 : ℚ) * (4 : ℚ)⌋ ∧
    ({0} : Finset ℕ) ∈ get_frequent_itemsets [{0}, {1}] (1 / 2) := by
  constructor
  · exact min_support_count_floor_inclusive.1 (1 / 3) 4 (by norm_num)
  · apply min_support_count_floor_inclusive.2 [{0}, {1}] (1 / 2) {0}
    · decide
    · decide
    · have h : min_support_count (1 / 2)
          ([({0} : Finset ℕ), {1}]).length = 1 := by
        norm_num [min_support_count]
      rw [h]
      decide

/-- C8: lowering the threshold only grows the result — every entry (key and
count) of the run at the larger `min_support` is an entry of the run at the
smaller one. -/
theorem frequent_map_antitone :
    ∀ (transactions : List (Finset ℕ)) (s₁ s₂ : ℚ), s₁ < s₂ →
      ∀ p ∈ get_frequent_map transactions s₂,
        p ∈ get_frequent_map transactions s₁ := by
  intro T s₁ s₂ hs p hp
  simp only [get_frequent_map, Finset.mem_image] at hp ⊢
  obtain ⟨x, hx, rfl⟩ := hp
  obtain ⟨⟨hsub, hcnt⟩, hcard⟩ := (mem_get_frequent_itemsets T s₂ x).mp hx
  have hmono : min_support_count s₁ T.length ≤
      min_support_count s₂ T.length := by
    unfold min_support_count
    exact Int.toNat_le_toNat (Int.floor_le_floor
      (mul_le_mul_of_nonneg_right (le_of_lt hs)
        (Nat.cast_nonneg T.length)))
  exact ⟨x, (mem_get_frequent_itemsets T s₁ x).mpr
    ⟨⟨hsub, le_trans hmono hcnt⟩, hcard⟩, rfl⟩

/-- Witness for the C8 theorem: the entry `({0}, 1)` of the run at
`min_support = 1/2` on `[{0}]` also belongs to the run at `1/4`. -/
theorem frequent_map_antitone_witness :
    (({0} : Finset ℕ), 1) ∈ get_frequent_map [{0}] (1 / 4) := by
  apply frequent_map_antitone [{0}] (1 / 4) (1 / 2) (by norm_num)
  have hmem : ({0} : Finset ℕ) ∈ get_frequent_itemsets [{0}] (1 / 2) := by
    rw [mem_get_frequent_itemsets]
    refine ⟨⟨by decide, ?_⟩, by decide⟩
    have h : min_support_count (1 / 2) ([({0} : Finset ℕ)]).length = 0 := by
      norm_num [min_support_count]
    rw [h]
    exact Nat.zero_le _
  simp only [get_frequent_map, Finset.mem_image]
  refine ⟨{0}, hmem, ?_⟩
  have hcnt : count_support [({0} : Finset ℕ)] {0} = 1 := by decide
  rw [hcnt]

/-- C9: the empty transaction list yields an empty frequent-itemset result
for every `min_support`, and feeding that result to the closed and maximal
reducers yields an empty map and an empty collection. -/
theorem empty_transactions_all_empty :
    ∀ min_support : ℚ,
      get_frequent_itemsets [] min_support = ∅ ∧
      get_frequent_map [] min_support = ∅ ∧
      find_closed_itemsets (get_frequent_map [] min_support) = ∅ ∧
      find_maximal_itemsets (get_frequent_map [] min_support) = ∅ := by
  intro s
  have h1 : get_frequent_itemsets [] s = ∅ := by
    ext x
    rw [mem_get_frequent_itemsets]
    simp only [Finset.not_mem_empty, iff_false]
    rintro ⟨⟨hsub, _⟩, hcard⟩
    have hx : x = ∅ := Finset.subset_empty.mp hsub
    rw [hx] at hcard
    simp at hcard
  have h2 : get_frequent_map [] s = ∅ := by
    simp only [get_frequent_map, h1, Finset.image_empty]
  refine ⟨h1, h2, ?_, ?_⟩
  · rw [h2]
    simp [find_closed_itemsets]
  · rw [h2]
    simp [find_maximal_itemsets]

/-- C10: with transactions `[{0}, {1}]` and `min_support = 2/5` (inside the
valid range `(0, 1]`, and with `(2/5) * 2 < 1` so the computed threshold is
0), the frequent result contains the key `{0, 1}` whose support count is 0:
an itemset contained in no transaction is reported frequent. -/
theorem zero_threshold_zero_count_member :
    (0 < (2 / 5 : ℚ) ∧ (2 / 5 : ℚ) ≤ 1) ∧
    (2 / 5 : ℚ) * (([({0} : Finset ℕ), {1}]).length : ℚ) < 1 ∧
    min_support_count (2 / 5) ([({0} : Finset ℕ), {1}]).length = 0 ∧
    ({0, 1} : Finset ℕ) ∈ get_frequent_itemsets [{0}, {1}] (2 / 5) ∧
    count_support [({0} : Finset ℕ), {1}] {0, 1} = 0 := by
  have hth :
      min_support_count (2 / 5) ([({0} : Finset ℕ), {1}]).length = 0 := by
    norm_num [min_support_count]
  refine ⟨⟨by norm_num, by norm_num⟩, by norm_num, hth, ?_, by decide⟩
  rw [mem_get_frequent_itemsets]
  refine ⟨⟨by decide, ?_⟩, by decide⟩
  rw [hth]
  exact Nat.zero_le _

/-- Witness for the C3 theorem: in the one-entry map `{({0}, 1)}` the key
`{0}` has maximum cardinality and is reported maximal. -/
theorem find_maximal_itemsets_spec_witness :
    ({0} : Finset ℕ) ∈ find_maximal_itemsets {(({0} : Finset ℕ), 1)} :=
  find_maximal_itemsets_spec.2.1 {(({0} : Finset ℕ), 1)}
    (({0} : Finset ℕ), 1) (by decide) (by decide)
